import Mathlib

/-!
Verification of the MKN-10 classification search engine
(`src/biomcp/czech/mkn/search.py`): a shallow embedding of the code
index, text index, query classification, code-prefix search, free-text
search, hierarchy resolution, the three public operations, and the
module-level index cache, together with theorems settling the frozen
claims about them.

Conventions of the embedding:
- Python dicts keyed by code become association lists
  (`List (String × Node)`) preserving insertion order, with lookup
  returning the first binding (keys are unique after a successful
  parse, per the data-model invariant).
- Python sets of code strings become duplicate-free `List String`
  built with membership-checked insertion (`setInsert` / `setUnion`);
  every property proved is order-independent (final results are
  sorted), matching the unordered nature of Python sets.
- The unbounded `while` loop of `_resolve_hierarchy` is modelled with
  explicit fuel: `none` means the loop has not exited within the given
  number of iterations, so "the loop diverges" is expressed as
  "for every fuel the result is `none`".
- The `parse_claml` parser and the JSON serialization layer are out of
  scope of the claims; operations take the parser as a function
  argument and return structured values instead of JSON strings.
-/

/-- A node record of the Code Index, mirroring the dict
`{code, name_cs, kind, parent_code, children}` built by the parser.
`parent_code = some ""` is distinguished from `none` because the
Python loop condition `current.get("parent_code")` treats both the
missing key and the empty string as falsy. -/
structure Node where
  code : String
  name_cs : String
  kind : String
  parent_code : Option String
  children : List String
deriving Repr, DecidableEq

/-- The Code Index: insertion-ordered mapping code -> node. -/
abbrev CodeIndex := List (String × Node)

/-- The Text Index: insertion-ordered mapping normalized word -> codes. -/
abbrev TextIndex := List (String × List String)

/-- `code_index.get(code)`: first binding for the key, if any. -/
def lookupCI (ci : CodeIndex) (c : String) : Option Node :=
  (ci.find? (fun p => p.1 == c)).map (fun p => p.2)

/-- ASCII letter, upper or lower case: the character class `[A-Z]`
under `re.IGNORECASE`. -/
def isAsciiLetter (c : Char) : Bool :=
  ('A' ≤ c && c ≤ 'Z') || ('a' ≤ c && c ≤ 'z')

/-- ASCII digit: the character class `[0-9]`. -/
def isAsciiDigit (c : Char) : Bool :=
  '0' ≤ c && c ≤ '9'

/-- The character class `[A-Z0-9]` under `re.IGNORECASE`. -/
def isAsciiAlnum (c : Char) : Bool :=
  isAsciiLetter c || isAsciiDigit c

/-- First alternative of `_CODE_RE`:
`^[A-Z0-9]{1,3}(?:\.[0-9]{1,2})?$` (case-insensitive).  Because the
two character classes exclude the dot, the regex matches exactly the
strings whose maximal leading alphanumeric run has length 1-3 and
whose remainder is empty or a dot followed by 1-2 digits. -/
def matchesAlt1 (cs : List Char) : Bool :=
  let a := cs.takeWhile isAsciiAlnum
  let r := cs.dropWhile isAsciiAlnum
  decide (1 ≤ a.length ∧ a.length ≤ 3) &&
    (match r with
     | [] => true
     | c :: ds =>
       c == '.' && decide (1 ≤ ds.length ∧ ds.length ≤ 2) &&
         ds.all isAsciiDigit)

/-- Second alternative of `_CODE_RE`: `^[A-Z]{1,5}-[A-Z0-9]{2,5}$`
(case-insensitive). -/
def matchesAlt2 (cs : List Char) : Bool :=
  let a := cs.takeWhile isAsciiLetter
  let r := cs.dropWhile isAsciiLetter
  decide (1 ≤ a.length ∧ a.length ≤ 5) &&
    (match r with
     | [] => false
     | c :: b =>
       c == '-' && decide (2 ≤ b.length ∧ b.length ≤ 5) &&
         b.all isAsciiAlnum)

/-- `_CODE_RE.match(stripped)` of `_mkn_search`: query classification. -/
def isCodeQuery (s : String) : Bool :=
  matchesAlt1 s.toList || matchesAlt2 s.toList

/-- Python `str.strip()`: drop leading and trailing whitespace
(structural model of `query.strip()` / `code.strip()`). -/
def pyStrip (s : String) : String :=
  String.mk
    (((s.toList.dropWhile Char.isWhitespace).reverse.dropWhile
        Char.isWhitespace).reverse)

/-- Python `str.upper()` (ASCII case mapping, enough for MKN codes). -/
def pyUpper (s : String) : String :=
  String.mk (s.toList.map Char.toUpper)

/-- Python `str.startswith(pre)`. -/
def strStartsWith (s pre : String) : Bool :=
  pre.toList.isPrefixOf s.toList

/-- Accumulating splitter behind `pyWords`: gather maximal runs of
non-whitespace characters (`cur` holds the current run reversed). -/
def wordsAux : List Char → List Char → List String
  | [], cur => if cur.isEmpty then [] else [String.mk cur.reverse]
  | c :: rest, cur =>
    if c.isWhitespace then
      if cur.isEmpty then wordsAux rest []
      else String.mk cur.reverse :: wordsAux rest []
    else wordsAux rest (c :: cur)

/-- Python `str.split()` with no argument: whitespace runs separate
the words and produce no empty pieces. -/
def pyWords (s : String) : List String :=
  wordsAux s.toList []

/-- Modelled from the spec: the Diacritic Normalizer of
`biomcp.czech.diacritics` (its source file is not part of the sources
given; only its callers are).  Per spec section 4.1 it lower-cases the
input and replaces every accented character with its base Latin
letter.  Characters outside the tabulated Czech diacritics are
ASCII-lower-cased. -/
def normChar (c : Char) : Char :=
  if c = 'á' || c = 'Á' then 'a'
  else if c = 'č' || c = 'Č' then 'c'
  else if c = 'ď' || c = 'Ď' then 'd'
  else if c = 'é' || c = 'É' then 'e'
  else if c = 'ě' || c = 'Ě' then 'e'
  else if c = 'í' || c = 'Í' then 'i'
  else if c = 'ň' || c = 'Ň' then 'n'
  else if c = 'ó' || c = 'Ó' then 'o'
  else if c = 'ř' || c = 'Ř' then 'r'
  else if c = 'š' || c = 'Š' then 's'
  else if c = 'ť' || c = 'Ť' then 't'
  else if c = 'ú' || c = 'Ú' then 'u'
  else if c = 'ů' || c = 'Ů' then 'u'
  else if c = 'ý' || c = 'Ý' then 'y'
  else if c = 'ž' || c = 'Ž' then 'z'
  else c.toLower

/-- Modelled from the spec: `normalize_query` of
`biomcp.czech.diacritics` — lower-casing plus diacritic stripping,
character by character. -/
def normalize_query (s : String) : String :=
  String.mk (s.toList.map normChar)

/-- `normalized.split()` followed by the length filter of
`_search_by_text`: whitespace tokenization keeping tokens of length
at least 2 (which also drops the empty pieces `str.split()` never
produces). -/
def tokensOf (q : String) : List String :=
  (pyWords (normalize_query q)).filter (fun w => decide (2 ≤ w.length))

/-- Python substring containment `a in b` on character lists. -/
def isSub (a : List Char) : List Char → Bool
  | [] => a.isEmpty
  | c :: rest => a.isPrefixOf (c :: rest) || isSub a rest

/-- `set.add`-style insertion: append unless already present, so the
list stays duplicate-free. -/
def setInsert (c : String) (l : List String) : List String :=
  if c ∈ l then l else l ++ [c]

/-- `matching.update(codes)`: fold the new codes into the set. -/
def setUnion (l₁ l₂ : List String) : List String :=
  l₂.foldl (fun acc c => setInsert c acc) l₁

/-- The per-token candidate set of `_search_by_text`: the union of the
code sets of every indexed word related to the token by bidirectional
substring containment (`word in indexed_word or indexed_word in word`). -/
def tokenMatches (t : String) (ti : TextIndex) : List String :=
  ti.foldl
    (fun acc wc =>
      if isSub t.toList wc.1.toList || isSub wc.1.toList t.toList then
        setUnion acc wc.2
      else acc)
    []

/-- Insertion step of the sort `results.sort(key=lambda n: n["code"])`:
insert `a` in front of the first element whose key is not smaller. -/
def insertSorted (key : α → String) (a : α) : List α → List α
  | [] => [a]
  | b :: t => if key a ≤ key b then a :: b :: t else b :: insertSorted key a t

/-- Sorting by a string key (insertion sort). -/
def sortByKey (key : α → String) (l : List α) : List α :=
  l.foldr (insertSorted key) []

/-- `_search_by_text`: tokenize, build per-token candidate sets,
intersect them, resolve candidates to nodes, sort by code, truncate. -/
def search_by_text (query : String) (ci : CodeIndex) (ti : TextIndex)
    (m : Nat) : List Node :=
  let words := tokensOf query
  if words.isEmpty then []
  else
    let candidateSets := words.map (fun w => tokenMatches w ti)
    match candidateSets with
    | [] => []
    | c0 :: rest =>
      let candidates := rest.foldl (fun acc s => acc.filter (fun c => s.contains c)) c0
      let results := candidates.filterMap (fun c => lookupCI ci c)
      (sortByKey (fun n => n.code) results).take m

/-- Loop body of `_search_by_code`: iterate the index in order, keep
nodes whose key, upper-cased, starts with the upper-cased query, and
break as soon as `max_results <= len(results)` — the length test runs
only after a node has been appended. -/
def searchByCodeAux (upperQ : String) (m : Nat) :
    List (String × Node) → List Node → List Node
  | [], acc => acc
  | p :: rest, acc =>
    if strStartsWith (pyUpper p.1) upperQ then
      let acc2 := acc ++ [p.2]
      if m ≤ acc2.length then acc2 else searchByCodeAux upperQ m rest acc2
    else searchByCodeAux upperQ m rest acc

/-- `_search_by_code`. -/
def search_by_code (query : String) (ci : CodeIndex) (m : Nat) : List Node :=
  searchByCodeAux (pyUpper query) m ci []

/-- The five accumulator variables of `_resolve_hierarchy`, initialised
to empty strings. -/
structure ScanAcc where
  chapterCode : String
  chapterName : String
  blockCode : String
  blockName : String
  categoryCode : String
deriving Repr, DecidableEq

/-- One iteration of the root-to-leaf recording loop of
`_resolve_hierarchy`: an unconditional overwrite per kind. -/
def scanStep (acc : ScanAcc) (a : Node) : ScanAcc :=
  if a.kind = "chapter" then
    { acc with chapterCode := a.code, chapterName := a.name_cs }
  else if a.kind = "block" then
    { acc with blockCode := a.code, blockName := a.name_cs }
  else if a.kind = "category" then
    { acc with categoryCode := a.code }
  else acc

/-- `for ancestor in reversed(chain): ...` — the chain is stored
self-first, so the loop runs root-to-leaf. -/
def scanChain (chain : List Node) : ScanAcc :=
  chain.reverse.foldl scanStep ⟨"", "", "", "", ""⟩

/-- The hierarchy dict returned by `_resolve_hierarchy`. -/
structure Hierarchy where
  chapter : String
  chapter_name : String
  block : String
  block_name : String
  category : String
deriving Repr, DecidableEq

/-- The upward `while current.get("parent_code")` loop of
`_resolve_hierarchy`, with explicit fuel.  `none` means the loop has
not exited within `fuel` iterations; the source loop has no cycle
guard, so on a cyclic index it never exits and the fueled model
returns `none` for every fuel. -/
def buildChainAux (ci : CodeIndex) : Nat → Node → List Node → Option (List Node)
  | 0, _, _ => none
  | fuel + 1, current, chain =>
    match current.parent_code with
    | none => some chain
    | some p =>
      if p = "" then some chain
      else
        match lookupCI ci p with
        | none => some chain
        | some parent => buildChainAux ci fuel parent (chain ++ [parent])

/-- Tail of `_resolve_hierarchy` after the chain is built: record the
last node of each kind root-to-leaf, apply the own-code fallback for a
category node, fail when no chapter was seen, and default the category
field to the queried code. -/
def finishResolve (code : String) (node : Node) (chain : List Node) :
    Option Hierarchy :=
  let acc := scanChain chain
  let categoryCode :=
    if node.kind = "category" ∧ acc.categoryCode = "" then node.code
    else acc.categoryCode
  if acc.chapterCode = "" then none
  else
    some
      { chapter := acc.chapterCode
        chapter_name := acc.chapterName
        block := acc.blockCode
        block_name := acc.blockName
        category := if categoryCode = "" then code else categoryCode }

/-- `_resolve_hierarchy` with fuel for the upward walk.  Outer `none`
means the walk has not terminated within `fuel` iterations; `some r`
means the function returns `r` (which is `none` for an unknown code or
a chapterless chain). -/
def resolve_hierarchy_fuel (code : String) (ci : CodeIndex) (fuel : Nat) :
    Option (Option Hierarchy) :=
  match lookupCI ci code with
  | none => some none
  | some node =>
    match buildChainAux ci fuel node [node] with
    | none => none
    | some chain => some (finishResolve code node chain)

/-- The Diagnosis-shaped dict of `_node_to_diagnosis`: the fields
name_en, definition, includes, excludes and modifiers are always
returned as null / empty lists by the source. -/
structure Diagnosis where
  code : String
  name_cs : String
  name_en : Option String
  definition : Option String
  hierarchy : Option Hierarchy
  includes : List String
  excludes : List String
  modifiers : List String
  source : String
deriving Repr, DecidableEq

/-- `_node_to_diagnosis` (fuel threaded into the hierarchy walk). -/
def node_to_diagnosis_fuel (code : String) (ci : CodeIndex) (fuel : Nat) :
    Option (Option Diagnosis) :=
  match lookupCI ci code with
  | none => some none
  | some node =>
    match resolve_hierarchy_fuel code ci fuel with
    | none => none
    | some hier =>
      some (some
        { code := node.code
          name_cs := node.name_cs
          name_en := none
          definition := none
          hierarchy := hier
          includes := []
          excludes := []
          modifiers := []
          source := "UZIS/MKN-10" })

/-- One entry of the `results` list built by `_mkn_search`. -/
structure SearchItem where
  code : String
  name_cs : String
  kind : String
deriving Repr, DecidableEq

/-- Structured value of the JSON string returned by `_mkn_search`:
either the error dict `{"error": msg, "results": []}` or the success
dict `{"query", "total", "results"}`. -/
inductive SearchOut where
  | err (msg : String)
  | ok (query : String) (total : Nat) (results : List SearchItem)
deriving Repr, DecidableEq

/-- Structured value of the JSON string returned by `_mkn_get`. -/
inductive GetOut where
  | err (msg : String)
  | ok (d : Diagnosis)
deriving Repr, DecidableEq

/-- One child / chapter entry built by `_mkn_browse`. -/
structure BrowseItem where
  code : String
  name_cs : String
  kind : String
  children : List String
deriving Repr, DecidableEq

/-- Structured value of the JSON string returned by `_mkn_browse`. -/
inductive BrowseOut where
  | err (msg : String)
  | chapters (items : List BrowseItem)
  | node (code : String) (name_cs : String) (kind : String)
      (parent_code : Option String) (children : List BrowseItem)
deriving Repr, DecidableEq

/-- The module-level cache pair `(_INDEX_CACHE, _XML_CACHE)`. -/
structure CacheState where
  indexCache : Option (CodeIndex × TextIndex)
  xmlCache : Option String
deriving Repr, DecidableEq

/-- The initial module state: both globals are `None`. -/
def cacheEmpty : CacheState := ⟨none, none⟩

/-- `_get_index`: rebuild iff `_INDEX_CACHE is None or
xml_content != _XML_CACHE` (a string never equals `None`, so a `None`
`_XML_CACHE` also rebuilds).  The returned boolean records whether the
parser was invoked. -/
def get_index (parse : String → CodeIndex × TextIndex) (xml : String)
    (st : CacheState) : (CodeIndex × TextIndex) × CacheState × Bool :=
  match st.indexCache, st.xmlCache with
  | some idx, some x =>
    if x = xml then (idx, st, false)
    else (parse xml, ⟨some (parse xml), some xml⟩, true)
  | _, _ => (parse xml, ⟨some (parse xml), some xml⟩, true)

/-- Search item built from a node by `_mkn_search`. -/
def toItem (n : Node) : SearchItem :=
  ⟨n.code, n.name_cs, n.kind⟩

/-- Body of `_mkn_search` after the index is available: strip the
query, dispatch on `_CODE_RE`, shape the results. -/
def mknSearchCore (query : String) (m : Nat) (ci : CodeIndex)
    (ti : TextIndex) : SearchOut :=
  let stripped := pyStrip query
  let nodes :=
    if isCodeQuery stripped then search_by_code stripped ci m
    else search_by_text stripped ci ti m
  SearchOut.ok stripped (nodes.map toItem).length (nodes.map toItem)

/-- `_mkn_search`: the empty-document guard, the cache, the dispatch. -/
def mkn_search (parse : String → CodeIndex × TextIndex) (query : String)
    (m : Nat) (xml : String) (st : CacheState) : SearchOut × CacheState :=
  if xml = "" then (SearchOut.err "No MKN-10 data loaded.", st)
  else
    let r := get_index parse xml st
    (mknSearchCore query m r.1.1 r.1.2, r.2.1)

/-- `_mkn_get`: the empty-document guard, the cache, detail lookup on
the stripped code; the not-found error names the unstripped code.
Outer `none` propagates divergence of the hierarchy walk. -/
def mkn_get (parse : String → CodeIndex × TextIndex) (code : String)
    (xml : String) (st : CacheState) (fuel : Nat) :
    Option (GetOut × CacheState) :=
  if xml = "" then some (GetOut.err "No MKN-10 data loaded.", st)
  else
    let r := get_index parse xml st
    match node_to_diagnosis_fuel (pyStrip code) r.1.1 fuel with
    | none => none
    | some none => some (GetOut.err ("Code not found: " ++ code), r.2.1)
    | some (some d) => some (GetOut.ok d, r.2.1)

/-- `_mkn_browse`: the empty-document guard, the cache, the root
chapter listing or the one-level child expansion; the not-found error
names the unstripped code. -/
def mkn_browse (parse : String → CodeIndex × TextIndex)
    (code : Option String) (xml : String) (st : CacheState) :
    BrowseOut × CacheState :=
  if xml = "" then (BrowseOut.err "No MKN-10 data loaded.", st)
  else
    let r := get_index parse xml st
    let ci := r.1.1
    match code with
    | none =>
      let chapters :=
        ((ci.map (fun p => p.2)).filter (fun n => n.kind == "chapter")).map
          (fun n => BrowseItem.mk n.code n.name_cs n.kind n.children)
      (BrowseOut.chapters (sortByKey (fun it => it.code) chapters), r.2.1)
    | some c =>
      match lookupCI ci (pyStrip c) with
      | none => (BrowseOut.err ("Code not found: " ++ c), r.2.1)
      | some node =>
        let childNodes := node.children.filterMap
          (fun cc => (lookupCI ci cc).map
            (fun ch => BrowseItem.mk ch.code ch.name_cs ch.kind ch.children))
        (BrowseOut.node node.code node.name_cs node.kind node.parent_code
          childNodes, r.2.1)

/-- Spec-side formulation (for the refinement claims): a token and an
indexed word are related when either contains the other as a
substring. -/
def specMatchWord (t w : String) : Bool :=
  isSub t.toList w.toList || isSub w.toList t.toList

/-- Spec-side formulation: a code is a candidate for a token when some
entry of the Text Index relates its word to the token and lists the
code. -/
def specCandidate (ti : TextIndex) (t : String) (c : String) : Bool :=
  ti.any (fun wc => specMatchWord t wc.1 && wc.2.contains c)

/-- Spec-side formulation of free-text search, following the spec's
words: an empty token list yields an empty result; otherwise the nodes
whose code is in every per-token candidate set, sorted
lexicographically by code, truncated to `max_results`. -/
def spec_text_search (q : String) (ci : CodeIndex) (ti : TextIndex)
    (m : Nat) : List Node :=
  let ts := tokensOf q
  if ts.isEmpty then []
  else
    (sortByKey (fun n => n.code)
      ((ci.filter (fun p => ts.all (fun t => specCandidate ti t p.1))).map
        (fun p => p.2))).take m

/-- Spec-side formulation of the code-pattern classification, following
the spec's words: 1-3 alphanumeric characters optionally followed by a
dot and 1-2 digits, or 1-5 letters, a hyphen, and 2-5 alphanumerics,
case-insensitively. -/
def specCodePattern (s : String) : Prop :=
  (∃ a : List Char, s.toList = a ∧ 1 ≤ a.length ∧ a.length ≤ 3 ∧
    ∀ c ∈ a, isAsciiAlnum c = true) ∨
  (∃ a ds : List Char, s.toList = a ++ '.' :: ds ∧
    1 ≤ a.length ∧ a.length ≤ 3 ∧ (∀ c ∈ a, isAsciiAlnum c = true) ∧
    1 ≤ ds.length ∧ ds.length ≤ 2 ∧ ∀ c ∈ ds, isAsciiDigit c = true) ∨
  (∃ a b : List Char, s.toList = a ++ '-' :: b ∧
    1 ≤ a.length ∧ a.length ≤ 5 ∧ (∀ c ∈ a, isAsciiLetter c = true) ∧
    2 ≤ b.length ∧ b.length ≤ 5 ∧ ∀ c ∈ b, isAsciiAlnum c = true)

/-- The code of an optional node, empty string when absent. -/
def optCode : Option Node → String
  | some n => n.code
  | none => ""

/-- The label of an optional node, empty string when absent. -/
def optName : Option Node → String
  | some n => n.name_cs
  | none => ""

/-- The last node of the given kind in a list, if any. -/
def lastOfKind (k : String) : List Node → Option Node
  | [] => none
  | a :: t =>
    match lastOfKind k t with
    | some n => some n
    | none => if a.kind = k then some a else none

/-- The code of an optional node with an explicit default. -/
def optCodeD (o : Option Node) (d : String) : String :=
  match o with
  | some n => n.code
  | none => d

/-- The label of an optional node with an explicit default. -/
def optNameD (o : Option Node) (d : String) : String :=
  match o with
  | some n => n.name_cs
  | none => d

/-- Length of the results list carried by a search outcome. -/
def searchOutLen : SearchOut → Nat
  | SearchOut.err _ => 0
  | SearchOut.ok _ _ rs => rs.length

/-! ### Concrete indices used by counterexamples and witnesses -/

/-- Chapter node of the four-level sample chain. -/
def nodeX : Node := ⟨"X", "Nemoci dychaci soustavy", "chapter", none, ["J00-J06"]⟩

/-- Block node of the sample chain. -/
def nodeBlk : Node := ⟨"J00-J06", "Akutni infekce", "block", some "X", ["J06"]⟩

/-- Mid category of the sample chain. -/
def nodeJ06 : Node := ⟨"J06", "Akutni infekce hornich cest", "category", some "J00-J06", ["J06.9"]⟩

/-- Leaf category of the sample chain. -/
def nodeJ069 : Node := ⟨"J06.9", "Akutni infekce hornich cest dychacich", "category", some "J06", []⟩

/-- The sample Code Index with chain chapter X -> block J00-J06 ->
category J06 -> category J06.9. -/
def chainCi : CodeIndex :=
  [("X", nodeX), ("J00-J06", nodeBlk), ("J06", nodeJ06), ("J06.9", nodeJ069)]

/-- A small Text Index over the sample chain labels. -/
def chainTi : TextIndex :=
  [("akutni", ["J00-J06", "J06", "J06.9"]),
   ("infekce", ["J00-J06", "J06", "J06.9"]),
   ("hornich", ["J06", "J06.9"]),
   ("cest", ["J06", "J06.9"]),
   ("dychacich", ["J06.9"]),
   ("nemoci", ["X"]),
   ("dychaci", ["X"]),
   ("soustavy", ["X"])]

/-- First node of a two-node parent cycle. -/
def cycA : Node := ⟨"A", "cyklus a", "category", some "B", []⟩

/-- Second node of a two-node parent cycle. -/
def cycB : Node := ⟨"B", "cyklus b", "category", some "A", []⟩

/-- A Code Index whose parent links form a cycle A -> B -> A. -/
def cycCi : CodeIndex := [("A", cycA), ("B", cycB)]

/-- A disconnected node: its parent code resolves to nothing, so the
upward walk finds no chapter. -/
def nodeZ99 : Node := ⟨"Z99", "odpojeny uzel", "category", some "QQ", []⟩

/-- A Code Index containing only the disconnected node. -/
def discCi : CodeIndex := [("Z99", nodeZ99)]

/-- A Code Index containing a single chapter (used for the category
own-code fallback witness). -/
def chapCi : CodeIndex := [("X", nodeX)]

/-- A concrete parser stand-in for cache witnesses. -/
def parse0 : String → CodeIndex × TextIndex :=
  fun _ => (chainCi, chainTi)

/-- The cache invariant: whenever the index cache is non-empty, it
holds exactly the indices parsed from the cached raw document. -/
def cacheInv (parse : String → CodeIndex × TextIndex) (st : CacheState) : Prop :=
  ∀ idx, st.indexCache = some idx →
    ∃ x, st.xmlCache = some x ∧ idx = parse x

/-! ### Theorems -/

/-- The upward walk over the cyclic index never leaves the two-node
cycle, so it consumes every fuel budget without exiting. -/
theorem cycChain_none (fuel : Nat) :
    ∀ cur chain, (cur = cycA ∨ cur = cycB) →
      buildChainAux cycCi fuel cur chain = none := by
  induction fuel with
  | zero => intro cur chain _; rfl
  | succ n ih =>
    intro cur chain h
    rcases h with h | h <;> subst h
    · have he : buildChainAux cycCi (n + 1) cycA chain
          = buildChainAux cycCi n cycB (chain ++ [cycB]) := rfl
      rw [he]
      exact ih _ _ (Or.inr rfl)
    · have he : buildChainAux cycCi (n + 1) cycB chain
          = buildChainAux cycCi n cycA (chain ++ [cycA]) := rfl
      rw [he]
      exact ih _ _ (Or.inl rfl)

/-- C1: the claim says `_resolve_hierarchy` tracks visited codes and
returns `None` when the parent walk revisits a code.  The source loop
has no visited set: on the cyclic index `cycCi` the walk from `"A"`
never exits, whatever the fuel budget — the function diverges instead
of returning `None`. -/
theorem c1_resolve_hierarchy_diverges_on_cycle :
    ∀ fuel, resolve_hierarchy_fuel "A" cycCi fuel = none := by
  intro fuel
  have h := cycChain_none fuel cycA [cycA] (Or.inl rfl)
  have hl : lookupCI cycCi "A" = some cycA := rfl
  simp [resolve_hierarchy_fuel, hl, h]

/-- C7: with an empty raw document every public operation returns the
no-data error result and touches nothing else. -/
theorem c7_empty_document_error :
    ∀ (parse : String → CodeIndex × TextIndex) (st : CacheState)
      (query : String) (m : Nat) (code : String) (bcode : Option String)
      (fuel : Nat),
      mkn_search parse query m "" st
          = (SearchOut.err "No MKN-10 data loaded.", st)
        ∧ mkn_get parse code "" st fuel
          = some (GetOut.err "No MKN-10 data loaded.", st)
        ∧ mkn_browse parse bcode "" st
          = (BrowseOut.err "No MKN-10 data loaded.", st) := by
  intro parse st query m code bcode fuel
  exact ⟨rfl, rfl, rfl⟩

/-- C8: when the (stripped) code is absent from the Code Index built
for the supplied document, `_mkn_get` and `_mkn_browse` both return an
error result naming the missing code. -/
theorem c8_code_not_found (parse : String → CodeIndex × TextIndex)
    (xml : String) (st : CacheState) (code : String) (fuel : Nat)
    (hx : xml ≠ "")
    (hl : lookupCI (get_index parse xml st).1.1 (pyStrip code) = none) :
    mkn_get parse code xml st fuel
        = some (GetOut.err ("Code not found: " ++ code),
            (get_index parse xml st).2.1)
      ∧ mkn_browse parse (some code) xml st
        = (BrowseOut.err ("Code not found: " ++ code),
            (get_index parse xml st).2.1) := by
  constructor
  · simp only [mkn_get, if_neg hx, node_to_diagnosis_fuel, hl]
  · simp only [mkn_browse, if_neg hx, hl]

/-- Closed witness for `c8_code_not_found`. -/
theorem c8_witness :
    mkn_get parse0 "ZZ.99" "doc" cacheEmpty 3
        = some (GetOut.err ("Code not found: " ++ "ZZ.99"),
            (get_index parse0 "doc" cacheEmpty).2.1)
      ∧ mkn_browse parse0 (some "ZZ.99") "doc" cacheEmpty
        = (BrowseOut.err ("Code not found: " ++ "ZZ.99"),
            (get_index parse0 "doc" cacheEmpty).2.1) :=
  c8_code_not_found parse0 "doc" cacheEmpty "ZZ.99" 3
    (by decide) (by decide)

/-- C9: when the code is present but hierarchy resolution returns
`None`, `_mkn_get` still returns a successful diagnosis whose
hierarchy field is null and whose other fields come from the node. -/
theorem c9_hierarchy_null_detail_ok (parse : String → CodeIndex × TextIndex)
    (xml : String) (st : CacheState) (code : String) (fuel : Nat)
    (node : Node) (hx : xml ≠ "")
    (hl : lookupCI (get_index parse xml st).1.1 (pyStrip code) = some node)
    (hr : resolve_hierarchy_fuel (pyStrip code) (get_index parse xml st).1.1 fuel
        = some none) :
    mkn_get parse code xml st fuel
      = some (GetOut.ok
          ⟨node.code, node.name_cs, none, none, none, [], [], [], "UZIS/MKN-10"⟩,
          (get_index parse xml st).2.1) := by
  simp only [mkn_get, if_neg hx, node_to_diagnosis_fuel, hl, hr]

/-- Closed witness for `c9_hierarchy_null_detail_ok`: a disconnected
node resolves to no chapter, yet detail lookup succeeds with a null
hierarchy. -/
theorem c9_witness :
    mkn_get (fun _ => (discCi, [])) "Z99" "doc" cacheEmpty 5
      = some (GetOut.ok
          ⟨nodeZ99.code, nodeZ99.name_cs, none, none, none, [], [], [],
            "UZIS/MKN-10"⟩,
          (get_index (fun _ => (discCi, [])) "doc" cacheEmpty).2.1) :=
  c9_hierarchy_null_detail_ok (fun _ => (discCi, [])) "doc" cacheEmpty "Z99" 5
    nodeZ99 (by decide) (by decide) (by decide)

/-- C10: when the ancestor walk finds a chapter but records no node of
kind category (the queried node being a chapter or a block), the
resolved hierarchy's category field falls back to the queried code
itself. -/
theorem c10_category_falls_back_to_own_code (ci : CodeIndex) (code : String)
    (node : Node) (chain : List Node) (fuel : Nat)
    (hl : lookupCI ci code = some node)
    (hk : node.kind ≠ "category")
    (hb : buildChainAux ci fuel node [node] = some chain)
    (hch : (scanChain chain).chapterCode ≠ "")
    (hcat : (scanChain chain).categoryCode = "") :
    resolve_hierarchy_fuel code ci fuel
      = some (some
          ⟨(scanChain chain).chapterCode, (scanChain chain).chapterName,
            (scanChain chain).blockCode, (scanChain chain).blockName,
            code⟩) := by
  have hcond : ¬ (node.kind = "category" ∧ (scanChain chain).categoryCode = "") :=
    fun h => hk h.1
  simp only [resolve_hierarchy_fuel, hl, hb, finishResolve, if_neg hcond,
    if_neg hch]
  rw [if_pos hcat]

/-- Closed witness for `c10_category_falls_back_to_own_code`: querying
the chapter `"X"` yields a hierarchy whose category is `"X"`. -/
theorem c10_witness :
    resolve_hierarchy_fuel "X" chapCi 3
      = some (some
          ⟨(scanChain [nodeX]).chapterCode, (scanChain [nodeX]).chapterName,
            (scanChain [nodeX]).blockCode, (scanChain [nodeX]).blockName,
            "X"⟩) :=
  c10_category_falls_back_to_own_code chapCi "X" nodeX [nodeX] 3
    (by decide) (by decide) (by decide) (by decide) (by decide)

/-- C6: given the cache invariant, `_get_index` returns the indices
parsed from the supplied document, leaves the cache holding exactly
those indices with that document, keeps the invariant, does not
reparse on an identical second call, and rebuilds on any different
document. -/
theorem c6_cache_invariant (parse : String → CodeIndex × TextIndex)
    (xml : String) (st : CacheState) (h : cacheInv parse st) :
    (get_index parse xml st).1 = parse xml
      ∧ (get_index parse xml st).2.1 = ⟨some (parse xml), some xml⟩
      ∧ cacheInv parse (get_index parse xml st).2.1
      ∧ (get_index parse xml (get_index parse xml st).2.1).2.2 = false
      ∧ ∀ y, y ≠ xml →
          (get_index parse y (get_index parse xml st).2.1).2.2 = true := by
  obtain ⟨ic, xc⟩ := st
  have hpost : (get_index parse xml ⟨ic, xc⟩).1 = parse xml
      ∧ (get_index parse xml ⟨ic, xc⟩).2.1 = ⟨some (parse xml), some xml⟩ := by
    match ic, xc with
    | some idx, some x =>
      by_cases hx : x = xml
      · subst hx
        obtain ⟨x', hx', hidx⟩ := h idx rfl
        have hxx : x' = x := by
          injection hx' with hx''
          exact hx''.symm
        subst hxx
        subst hidx
        constructor
        · simp [get_index]
        · simp [get_index]
      · constructor
        · simp [get_index, hx]
        · simp [get_index, hx]
    | some idx, none => exact ⟨rfl, rfl⟩
    | none, some x => exact ⟨rfl, rfl⟩
    | none, none => exact ⟨rfl, rfl⟩
  refine ⟨hpost.1, hpost.2, ?_, ?_, ?_⟩
  · rw [hpost.2]
    intro idx hidx
    exact ⟨xml, rfl, by injection hidx with h'; exact h'.symm⟩
  · rw [hpost.2]
    simp [get_index]
  · intro y hy
    rw [hpost.2]
    have hne : xml ≠ y := fun h' => hy h'.symm
    simp [get_index, hne]

/-- The invariant holds for the empty initial cache. -/
theorem cacheInv_empty (parse : String → CodeIndex × TextIndex) :
    cacheInv parse cacheEmpty :=
  fun idx h => by cases h

/-- Closed witness for `c6_cache_invariant`: starting from the empty
cache, a parse happens, the cache then holds the parsed indices, and
an identical second call does not reparse. -/
theorem c6_witness :
    cacheInv parse0 cacheEmpty
      ∧ (get_index parse0 "doc" cacheEmpty).1 = parse0 "doc"
      ∧ (get_index parse0 "doc" (get_index parse0 "doc" cacheEmpty).2.1).2.2
          = false :=
  ⟨cacheInv_empty parse0,
    (c6_cache_invariant parse0 "doc" cacheEmpty (cacheInv_empty parse0)).1,
    (c6_cache_invariant parse0 "doc" cacheEmpty (cacheInv_empty parse0)).2.2.2.1⟩

/-- Each recording step overwrites the field of the node's kind and
keeps the others. -/
theorem scanStep_fields (acc : ScanAcc) (a : Node) :
    (scanStep acc a).chapterCode
        = (if a.kind = "chapter" then a.code else acc.chapterCode)
      ∧ (scanStep acc a).chapterName
        = (if a.kind = "chapter" then a.name_cs else acc.chapterName)
      ∧ (scanStep acc a).blockCode
        = (if a.kind = "block" then a.code else acc.blockCode)
      ∧ (scanStep acc a).blockName
        = (if a.kind = "block" then a.name_cs else acc.blockName)
      ∧ (scanStep acc a).categoryCode
        = (if a.kind = "category" then a.code else acc.categoryCode) := by
  by_cases h1 : a.kind = "chapter" <;>
    by_cases h2 : a.kind = "block" <;>
      by_cases h3 : a.kind = "category" <;>
        simp_all [scanStep]

/-- The recording loop of `_resolve_hierarchy` folded over any list
yields, for each kind, the last node of that kind (the accumulator
field when there is none). -/
theorem foldl_scanStep_lastOfKind (l : List Node) :
    ∀ acc : ScanAcc,
      (l.foldl scanStep acc).chapterCode
          = optCodeD (lastOfKind "chapter" l) acc.chapterCode
        ∧ (l.foldl scanStep acc).chapterName
          = optNameD (lastOfKind "chapter" l) acc.chapterName
        ∧ (l.foldl scanStep acc).blockCode
          = optCodeD (lastOfKind "block" l) acc.blockCode
        ∧ (l.foldl scanStep acc).blockName
          = optNameD (lastOfKind "block" l) acc.blockName
        ∧ (l.foldl scanStep acc).categoryCode
          = optCodeD (lastOfKind "category" l) acc.categoryCode := by
  induction l with
  | nil => intro acc; exact ⟨rfl, rfl, rfl, rfl, rfl⟩
  | cons a t ih =>
    intro acc
    have hstep := scanStep_fields acc a
    have ht := ih (scanStep acc a)
    have hfold : (a :: t).foldl scanStep acc = t.foldl scanStep (scanStep acc a) := rfl
    rw [hfold]
    refine ⟨?_, ?_, ?_, ?_, ?_⟩
    · rw [ht.1, hstep.1]
      show optCodeD (lastOfKind "chapter" t) _
          = optCodeD (lastOfKind "chapter" (a :: t)) _
      cases hlast : lastOfKind "chapter" t with
      | some n => simp [lastOfKind, hlast, optCodeD]
      | none =>
        by_cases hk : a.kind = "chapter" <;>
          simp [lastOfKind, hlast, optCodeD, hk]
    · rw [ht.2.1, hstep.2.1]
      show optNameD (lastOfKind "chapter" t) _
          = optNameD (lastOfKind "chapter" (a :: t)) _
      cases hlast : lastOfKind "chapter" t with
      | some n => simp [lastOfKind, hlast, optNameD]
      | none =>
        by_cases hk : a.kind = "chapter" <;>
          simp [lastOfKind, hlast, optNameD, hk]
    · rw [ht.2.2.1, hstep.2.2.1]
      show optCodeD (lastOfKind "block" t) _
          = optCodeD (lastOfKind "block" (a :: t)) _
      cases hlast : lastOfKind "block" t with
      | some n => simp [lastOfKind, hlast, optCodeD]
      | none =>
        by_cases hk : a.kind = "block" <;>
          simp [lastOfKind, hlast, optCodeD, hk]
    · rw [ht.2.2.2.1, hstep.2.2.2.1]
      show optNameD (lastOfKind "block" t) _
          = optNameD (lastOfKind "block" (a :: t)) _
      cases hlast : lastOfKind "block" t with
      | some n => simp [lastOfKind, hlast, optNameD]
      | none =>
        by_cases hk : a.kind = "block" <;>
          simp [lastOfKind, hlast, optNameD, hk]
    · rw [ht.2.2.2.2, hstep.2.2.2.2]
      show optCodeD (lastOfKind "category" t) _
          = optCodeD (lastOfKind "category" (a :: t)) _
      cases hlast : lastOfKind "category" t with
      | some n => simp [lastOfKind, hlast, optCodeD]
      | none =>
        by_cases hk : a.kind = "category" <;>
          simp [lastOfKind, hlast, optCodeD, hk]

/-- C2 counterexample: on the sample chain chapter X -> block J00-J06
-> category J06 -> category J06.9 queried at J06.9, the resolved
category is `"J06.9"` — the category field is NOT determined by the
first category met walking root-to-leaf (which is `"J06"`). -/
theorem c2_counterexample :
    resolve_hierarchy_fuel "J06.9" chainCi 10
        = some (some
            ⟨"X", "Nemoci dychaci soustavy", "J00-J06", "Akutni infekce",
              "J06.9"⟩)
      ∧ resolve_hierarchy_fuel "J06.9" chainCi 10
        ≠ some (some
            ⟨"X", "Nemoci dychaci soustavy", "J00-J06", "Akutni infekce",
              "J06"⟩) := by
  constructor
  · rfl
  · decide

/-- C2 amended: the root-to-leaf recording loop records for each kind
the LAST node of that kind met walking root-to-leaf (equivalently the
nearest one to the queried node, the queried node included), not the
first; on the sample chain queried at J06.9 the category is therefore
`"J06.9"`. -/
theorem c2_records_last_of_each_kind :
    (∀ chain : List Node,
      (scanChain chain).chapterCode
          = optCodeD (lastOfKind "chapter" chain.reverse) ""
        ∧ (scanChain chain).chapterName
          = optNameD (lastOfKind "chapter" chain.reverse) ""
        ∧ (scanChain chain).blockCode
          = optCodeD (lastOfKind "block" chain.reverse) ""
        ∧ (scanChain chain).blockName
          = optNameD (lastOfKind "block" chain.reverse) ""
        ∧ (scanChain chain).categoryCode
          = optCodeD (lastOfKind "category" chain.reverse) "")
      ∧ resolve_hierarchy_fuel "J06.9" chainCi 10
        = some (some
            ⟨"X", "Nemoci dychaci soustavy", "J00-J06", "Akutni infekce",
              "J06.9"⟩) := by
  constructor
  · intro chain
    exact foldl_scanStep_lastOfKind chain.reverse ⟨"", "", "", "", ""⟩
  · rfl

/-- The collecting loop of `_search_by_code` never exceeds
`max_results` when the accumulator is still below it. -/
theorem searchByCodeAux_le (u : String) (m : Nat) :
    ∀ (l : List (String × Node)) (acc : List Node), acc.length < m →
      (searchByCodeAux u m l acc).length ≤ m := by
  intro l
  induction l with
  | nil => intro acc h; exact Nat.le_of_lt h
  | cons p rest ih =>
    intro acc h
    show (searchByCodeAux u m (p :: rest) acc).length ≤ m
    rw [searchByCodeAux]
    by_cases hm : strStartsWith (pyUpper p.1) u
    · rw [if_pos hm]
      by_cases h2 : m ≤ (acc ++ [p.2]).length
      · rw [if_pos h2]
        rw [List.length_append]
        simpa using h
      · rw [if_neg h2]
        apply ih
        omega
    · rw [if_neg hm]
      exact ih acc h

/-- With `max_results = 0` the break fires right after the first
append: at most one extra node beyond the accumulator. -/
theorem searchByCodeAux_zero (u : String) :
    ∀ (l : List (String × Node)) (acc : List Node),
      (searchByCodeAux u 0 l acc).length ≤ acc.length + 1 := by
  intro l
  induction l with
  | nil => intro acc; exact Nat.le_succ _
  | cons p rest ih =>
    intro acc
    show (searchByCodeAux u 0 (p :: rest) acc).length ≤ acc.length + 1
    rw [searchByCodeAux]
    by_cases hm : strStartsWith (pyUpper p.1) u
    · rw [if_pos hm, if_pos (Nat.zero_le _)]
      rw [List.length_append]
      simp
    · rw [if_neg hm]
      exact Nat.le_trans (ih acc) (Nat.le_refl _)

/-- C5 counterexample: a code-pattern query with `max_results = 0`
returns one result, not zero — the claimed bound
`length <= max_results` fails at `max_results = 0`. -/
theorem c5_counterexample :
    searchOutLen (mknSearchCore "J06" 0 chainCi chainTi) = 1
      ∧ ¬ searchOutLen (mknSearchCore "J06" 0 chainCi chainTi) ≤ 0 := by
  constructor
  · rfl
  · decide

/-- C5 amended: the free-text branch always returns at most
`max_results` results; the code-prefix branch returns at most
`max results 1` results (so at most `max_results` whenever
`max_results >= 1`, but up to one result when `max_results = 0`), and
the same bound holds for the whole search operation. -/
theorem c5_results_bounded (q : String) (ci : CodeIndex) (ti : TextIndex)
    (m : Nat) :
    (search_by_text q ci ti m).length ≤ m
      ∧ (search_by_code q ci m).length ≤ max m 1
      ∧ (1 ≤ m → (search_by_code q ci m).length ≤ m)
      ∧ searchOutLen (mknSearchCore q m ci ti) ≤ max m 1 := by
  have htext : ∀ q', (search_by_text q' ci ti m).length ≤ m := by
    intro q'
    unfold search_by_text
    by_cases hw : (tokensOf q').isEmpty
    · rw [if_pos hw]; exact Nat.zero_le _
    · rw [if_neg hw]
      cases hcs : (tokensOf q').map (fun w => tokenMatches w ti) with
      | nil => exact Nat.zero_le _
      | cons c0 rest =>
        simp
  have hcode : ∀ q', (search_by_code q' ci m).length ≤ max m 1 := by
    intro q'
    unfold search_by_code
    cases m with
    | zero =>
      have h := searchByCodeAux_zero (pyUpper q') ci []
      simpa using h
    | succ k =>
      have h := searchByCodeAux_le (pyUpper q') (k + 1) ci []
        (by simp)
      exact Nat.le_trans h (Nat.le_max_left _ _)
  have hcode1 : 1 ≤ m → (search_by_code q ci m).length ≤ m := by
    intro hm
    unfold search_by_code
    exact searchByCodeAux_le (pyUpper q) m ci [] (by simpa using hm)
  refine ⟨htext q, hcode q, hcode1, ?_⟩
  by_cases hq : isCodeQuery (pyStrip q)
  · have hrw : mknSearchCore q m ci ti
        = SearchOut.ok (pyStrip q)
            ((search_by_code (pyStrip q) ci m).map toItem).length
            ((search_by_code (pyStrip q) ci m).map toItem) := by
      simp [mknSearchCore, hq]
    rw [hrw]
    simpa [searchOutLen] using hcode (pyStrip q)
  · have hrw : mknSearchCore q m ci ti
        = SearchOut.ok (pyStrip q)
            ((search_by_text (pyStrip q) ci ti m).map toItem).length
            ((search_by_text (pyStrip q) ci ti m).map toItem) := by
      simp [mknSearchCore, hq]
    rw [hrw]
    simp only [searchOutLen, List.length_map]
    exact Nat.le_trans (htext (pyStrip q)) (Nat.le_max_left _ _)

/-- Closed witness for `c5_results_bounded`: at `max_results = 1` the
code branch respects the bound. -/
theorem c5_witness :
    1 ≤ 1 ∧ (search_by_code "J06" chainCi 1).length ≤ 1 :=
  ⟨by decide, (c5_results_bounded "J06" chainCi chainTi 1).2.2.1 (by decide)⟩

/-- `takeWhile` walks through a fully satisfying block. -/
theorem takeWhile_all_append (p : Char → Bool) (a x : List Char)
    (h : ∀ c ∈ a, p c = true) :
    (a ++ x).takeWhile p = a ++ x.takeWhile p := by
  induction a with
  | nil => rfl
  | cons c t ih =>
    have hc : p c = true := h c (List.mem_cons_self c t)
    have ht := ih (fun d hd => h d (List.mem_cons_of_mem c hd))
    simp [List.takeWhile_cons, hc, ht]

/-- `dropWhile` discards a fully satisfying block. -/
theorem dropWhile_all_append (p : Char → Bool) (a x : List Char)
    (h : ∀ c ∈ a, p c = true) :
    (a ++ x).dropWhile p = x.dropWhile p := by
  induction a with
  | nil => rfl
  | cons c t ih =>
    have hc : p c = true := h c (List.mem_cons_self c t)
    have ht := ih (fun d hd => h d (List.mem_cons_of_mem c hd))
    simp [List.dropWhile_cons, hc, ht]

/-- The first regex alternative matches exactly the strings of 1-3
alphanumerics optionally followed by a dot and 1-2 digits. -/
theorem matchesAlt1_iff (cs : List Char) :
    matchesAlt1 cs = true ↔
      ((1 ≤ cs.length ∧ cs.length ≤ 3 ∧ ∀ c ∈ cs, isAsciiAlnum c = true) ∨
        (∃ a ds : List Char, cs = a ++ '.' :: ds ∧ 1 ≤ a.length ∧
          a.length ≤ 3 ∧ (∀ c ∈ a, isAsciiAlnum c = true) ∧
          1 ≤ ds.length ∧ ds.length ≤ 2 ∧
          ∀ c ∈ ds, isAsciiDigit c = true)) := by
  constructor
  · intro h
    simp only [matchesAlt1] at h
    cases hR : cs.dropWhile isAsciiAlnum with
    | nil =>
      rw [hR] at h
      rw [Bool.and_eq_true, decide_eq_true_iff] at h
      obtain ⟨⟨h1, h3⟩, _⟩ := h
      left
      have hcs : cs.takeWhile isAsciiAlnum = cs := by
        conv_rhs => rw [← List.takeWhile_append_dropWhile isAsciiAlnum cs]
        rw [hR, List.append_nil]
      rw [hcs] at h1 h3
      refine ⟨h1, h3, ?_⟩
      intro c hc
      rw [← hcs] at hc
      exact List.mem_takeWhile_imp hc
    | cons c ds =>
      rw [hR] at h
      rw [Bool.and_eq_true, Bool.and_eq_true, Bool.and_eq_true,
        decide_eq_true_iff, decide_eq_true_iff, beq_iff_eq,
        List.all_eq_true] at h
      obtain ⟨⟨h1, h3⟩, ⟨⟨hc, hd⟩, hdd⟩⟩ := h
      right
      refine ⟨cs.takeWhile isAsciiAlnum, ds, ?_, h1, h3, ?_, hd.1, hd.2, hdd⟩
      · conv_lhs => rw [← List.takeWhile_append_dropWhile isAsciiAlnum cs]
        rw [hR, hc]
      · intro d hd'
        exact List.mem_takeWhile_imp hd'
  · intro h
    rcases h with ⟨h1, h3, hall⟩ | ⟨a, ds, hcs, h1, h3, hall, hd1, hd2, hdd⟩
    · have ht : cs.takeWhile isAsciiAlnum = cs := by
        have := takeWhile_all_append isAsciiAlnum cs [] hall
        simpa using this
      have hd : cs.dropWhile isAsciiAlnum = [] := by
        have := dropWhile_all_append isAsciiAlnum cs [] hall
        simpa using this
      simp [matchesAlt1, ht, hd, h1, h3]
    · subst hcs
      have hdot : isAsciiAlnum '.' = false := by decide
      have ht : (a ++ '.' :: ds).takeWhile isAsciiAlnum = a := by
        rw [takeWhile_all_append isAsciiAlnum a ('.' :: ds) hall]
        simp [List.takeWhile_cons, hdot]
      have hd : (a ++ '.' :: ds).dropWhile isAsciiAlnum = '.' :: ds := by
        rw [dropWhile_all_append isAsciiAlnum a ('.' :: ds) hall]
        simp [List.dropWhile_cons, hdot]
      simp [matchesAlt1, ht, hd, h1, h3, hd1, hd2, List.all_eq_true]
      exact hdd

/-- The second regex alternative matches exactly the strings of 1-5
letters, a hyphen, and 2-5 alphanumerics. -/
theorem matchesAlt2_iff (cs : List Char) :
    matchesAlt2 cs = true ↔
      (∃ a b : List Char, cs = a ++ '-' :: b ∧ 1 ≤ a.length ∧
        a.length ≤ 5 ∧ (∀ c ∈ a, isAsciiLetter c = true) ∧
        2 ≤ b.length ∧ b.length ≤ 5 ∧
        ∀ c ∈ b, isAsciiAlnum c = true) := by
  constructor
  · intro h
    simp only [matchesAlt2] at h
    cases hR : cs.dropWhile isAsciiLetter with
    | nil =>
      rw [hR] at h
      simp at h
    | cons c b =>
      rw [hR] at h
      rw [Bool.and_eq_true, Bool.and_eq_true, Bool.and_eq_true,
        decide_eq_true_iff, decide_eq_true_iff, beq_iff_eq,
        List.all_eq_true] at h
      obtain ⟨⟨h1, h5⟩, ⟨⟨hc, hb⟩, hbb⟩⟩ := h
      refine ⟨cs.takeWhile isAsciiLetter, b, ?_, h1, h5, ?_, hb.1, hb.2, hbb⟩
      · conv_lhs => rw [← List.takeWhile_append_dropWhile isAsciiLetter cs]
        rw [hR, hc]
      · intro d hd'
        exact List.mem_takeWhile_imp hd'
  · intro h
    obtain ⟨a, b, hcs, h1, h5, hall, hb2, hb5, hbb⟩ := h
    subst hcs
    have hdash : isAsciiLetter '-' = false := by decide
    have ht : (a ++ '-' :: b).takeWhile isAsciiLetter = a := by
      rw [takeWhile_all_append isAsciiLetter a ('-' :: b) hall]
      simp [List.takeWhile_cons, hdash]
    have hd : (a ++ '-' :: b).dropWhile isAsciiLetter = '-' :: b := by
      rw [dropWhile_all_append isAsciiLetter a ('-' :: b) hall]
      simp [List.dropWhile_cons, hdash]
    simp [matchesAlt2, ht, hd, h1, h5, hb2, hb5, List.all_eq_true]
    exact hbb

/-- The executable classification agrees with the spec's wording of
the code pattern. -/
theorem isCodeQuery_iff_spec (s : String) :
    isCodeQuery s = true ↔ specCodePattern s := by
  unfold isCodeQuery specCodePattern
  rw [Bool.or_eq_true, matchesAlt1_iff, matchesAlt2_iff]
  constructor
  · intro h
    rcases h with (⟨h1, h3, hall⟩ | ⟨a, ds, hcs, hrest⟩) | ⟨a, b, hcs, hrest⟩
    · exact Or.inl ⟨s.toList, rfl, h1, h3, hall⟩
    · exact Or.inr (Or.inl ⟨a, ds, hcs, hrest⟩)
    · exact Or.inr (Or.inr ⟨a, b, hcs, hrest⟩)
  · intro h
    rcases h with ⟨a, ha, h1, h3, hall⟩ | ⟨a, ds, hcs, hrest⟩ | ⟨a, b, hcs, hrest⟩
    · rw [ha]
      exact Or.inl (Or.inl ⟨h1, h3, hall⟩)
    · exact Or.inl (Or.inr ⟨a, ds, hcs, hrest⟩)
    · exact Or.inr ⟨a, b, hcs, hrest⟩

/-- Every node the collecting loop of `_search_by_code` adds passed
the upper-cased prefix test on its key; with keys equal to node codes
that is a prefix property of the node's code. -/
theorem searchByCodeAux_startsWith (u : String) (m : Nat) :
    ∀ (l : List (String × Node)) (acc : List Node),
      (∀ p ∈ l, (p.2 : Node).code = p.1) →
      (∀ n ∈ acc, strStartsWith (pyUpper n.code) u = true) →
      ∀ n ∈ searchByCodeAux u m l acc,
        strStartsWith (pyUpper n.code) u = true := by
  intro l
  induction l with
  | nil =>
    intro acc _ hacc n hn
    exact hacc n hn
  | cons p rest ih =>
    intro acc hkeys hacc n hn
    rw [searchByCodeAux] at hn
    by_cases hm : strStartsWith (pyUpper p.1) u
    · rw [if_pos hm] at hn
      have hacc2 : ∀ x ∈ acc ++ [p.2],
          strStartsWith (pyUpper x.code) u = true := by
        intro x hx
        rcases List.mem_append.mp hx with hx | hx
        · exact hacc x hx
        · have hxp : x = p.2 := by simpa using hx
          subst hxp
          rw [hkeys p (List.mem_cons_self p rest)]
          exact hm
      by_cases h2 : m ≤ (acc ++ [p.2]).length
      · rw [if_pos h2] at hn
        exact hacc2 n hn
      · rw [if_neg h2] at hn
        exact ih (acc ++ [p.2])
          (fun q hq => hkeys q (List.mem_cons_of_mem p hq)) hacc2 n hn
    · rw [if_neg hm] at hn
      exact ih acc (fun q hq => hkeys q (List.mem_cons_of_mem p hq)) hacc n hn

/-- The collecting loop appends, in index order, a sublist of the
index's nodes. -/
theorem searchByCodeAux_sublist (u : String) (m : Nat) :
    ∀ (l : List (String × Node)) (acc : List Node),
      ∃ s, searchByCodeAux u m l acc = acc ++ s
        ∧ s.Sublist (l.map (fun p => p.2)) := by
  intro l
  induction l with
  | nil =>
    intro acc
    exact ⟨[], by simp [searchByCodeAux], List.nil_sublist _⟩
  | cons p rest ih =>
    intro acc
    rw [searchByCodeAux]
    by_cases hm : strStartsWith (pyUpper p.1) u
    · rw [if_pos hm]
      by_cases h2 : m ≤ (acc ++ [p.2]).length
      · rw [if_pos h2]
        refine ⟨[p.2], rfl, ?_⟩
        rw [List.map_cons]
        exact List.Sublist.cons₂ p.2 (List.nil_sublist _)
      · rw [if_neg h2]
        obtain ⟨s, hs, hsub⟩ := ih (acc ++ [p.2])
        refine ⟨p.2 :: s, by rw [hs]; simp, ?_⟩
        rw [List.map_cons]
        exact List.Sublist.cons₂ p.2 hsub
    · rw [if_neg hm]
      obtain ⟨s, hs, hsub⟩ := ih acc
      refine ⟨s, hs, ?_⟩
      rw [List.map_cons]
      exact List.Sublist.cons p.2 hsub

/-- C4: search strips the query and takes the code-prefix branch
exactly when the stripped query matches the code pattern of the spec
(`specCodePattern`); in that branch every returned node's code,
upper-cased, starts with the upper-cased stripped query, and the nodes
form a sublist of the Code Index's stable iteration order. -/
theorem c4_code_query_dispatch (q : String) (ci : CodeIndex) (ti : TextIndex)
    (m : Nat) (hkeys : ci.all (fun p => p.2.code == p.1) = true) :
    (isCodeQuery (pyStrip q) = true ↔ specCodePattern (pyStrip q))
      ∧ (isCodeQuery (pyStrip q) = true →
          mknSearchCore q m ci ti
            = SearchOut.ok (pyStrip q)
                ((search_by_code (pyStrip q) ci m).map toItem).length
                ((search_by_code (pyStrip q) ci m).map toItem))
      ∧ (isCodeQuery (pyStrip q) = false →
          mknSearchCore q m ci ti
            = SearchOut.ok (pyStrip q)
                ((search_by_text (pyStrip q) ci ti m).map toItem).length
                ((search_by_text (pyStrip q) ci ti m).map toItem))
      ∧ (∀ n ∈ search_by_code (pyStrip q) ci m,
          strStartsWith (pyUpper n.code) (pyUpper (pyStrip q)) = true)
      ∧ (search_by_code (pyStrip q) ci m).Sublist
          (ci.map (fun p => p.2)) := by
  refine ⟨isCodeQuery_iff_spec _, ?_, ?_, ?_, ?_⟩
  · intro h
    simp [mknSearchCore, h]
  · intro h
    simp [mknSearchCore, h]
  · have hk : ∀ p ∈ ci, (p.2 : Node).code = p.1 := by
      intro p hp
      exact beq_iff_eq.mp (List.all_eq_true.mp hkeys p hp)
    unfold search_by_code
    exact searchByCodeAux_startsWith (pyUpper (pyStrip q)) m ci [] hk
      (fun n hn => absurd hn (List.not_mem_nil n))
  · unfold search_by_code
    obtain ⟨s, hs, hsub⟩ :=
      searchByCodeAux_sublist (pyUpper (pyStrip q)) m ci []
    rw [hs]
    simpa using hsub

/-- Closed witness for `c4_code_query_dispatch`. -/
theorem c4_witness :
    chainCi.all (fun p => p.2.code == p.1) = true
      ∧ (search_by_code (pyStrip "J06") chainCi 10).Sublist
          (chainCi.map (fun p => p.2)) :=
  ⟨by decide,
    (c4_code_query_dispatch "J06" chainCi chainTi 10 (by decide)).2.2.2.2⟩

/-- Membership after a set insertion. -/
theorem mem_setInsert (x c : String) (l : List String) :
    x ∈ setInsert c l ↔ x = c ∨ x ∈ l := by
  unfold setInsert
  by_cases h : c ∈ l
  · rw [if_pos h]
    constructor
    · exact Or.inr
    · intro hx
      rcases hx with hx | hx
      · rw [hx]; exact h
      · exact hx
  · rw [if_neg h]
    rw [List.mem_append]
    constructor
    · intro hx
      rcases hx with hx | hx
      · exact Or.inr hx
      · exact Or.inl (by simpa using hx)
    · intro hx
      rcases hx with hx | hx
      · exact Or.inr (by simpa using hx)
      · exact Or.inl hx

/-- Set insertion keeps the list duplicate-free. -/
theorem nodup_setInsert (c : String) (l : List String) (h : l.Nodup) :
    (setInsert c l).Nodup := by
  unfold setInsert
  by_cases hc : c ∈ l
  · rw [if_pos hc]; exact h
  · rw [if_neg hc]
    simpa [List.nodup_append] using ⟨h, hc⟩

/-- Membership in a set union. -/
theorem mem_setUnion (x : String) (l₂ : List String) :
    ∀ l₁, x ∈ setUnion l₁ l₂ ↔ x ∈ l₁ ∨ x ∈ l₂ := by
  induction l₂ with
  | nil => intro l₁; simp [setUnion]
  | cons c t ih =>
    intro l₁
    have hstep : setUnion l₁ (c :: t) = setUnion (setInsert c l₁) t := rfl
    rw [hstep, ih (setInsert c l₁)]
    rw [mem_setInsert]
    constructor
    · intro h
      rcases h with (h | h) | h
      · exact Or.inr (by simp [h])
      · exact Or.inl h
      · exact Or.inr (List.mem_cons_of_mem c h)
    · intro h
      rcases h with h | h
      · exact Or.inl (Or.inr h)
      · rcases List.mem_cons.mp h with h | h
        · exact Or.inl (Or.inl h)
        · exact Or.inr h

/-- A set union of a duplicate-free list stays duplicate-free. -/
theorem nodup_setUnion (l₂ : List String) :
    ∀ l₁, l₁.Nodup → (setUnion l₁ l₂).Nodup := by
  induction l₂ with
  | nil => intro l₁ h; exact h
  | cons c t ih =>
    intro l₁ h
    exact ih (setInsert c l₁) (nodup_setInsert c l₁ h)

/-- Membership in the candidate fold of `tokenMatches`, relative to an
arbitrary accumulator. -/
theorem mem_tokenMatches_fold (t : String) (c : String) (ti : TextIndex) :
    ∀ acc,
      (c ∈ ti.foldl
          (fun acc wc =>
            if isSub t.toList wc.1.toList || isSub wc.1.toList t.toList then
              setUnion acc wc.2
            else acc)
          acc)
        ↔ c ∈ acc ∨ ∃ wc ∈ ti,
            (isSub t.toList wc.1.toList || isSub wc.1.toList t.toList) = true
              ∧ c ∈ wc.2 := by
  induction ti with
  | nil => intro acc; simp
  | cons wc rest ih =>
    intro acc
    rw [List.foldl_cons]
    by_cases hw : (isSub t.toList wc.1.toList || isSub wc.1.toList t.toList) = true
    · rw [if_pos hw, ih (setUnion acc wc.2)]
      rw [mem_setUnion]
      constructor
      · intro h
        rcases h with (h | h) | ⟨w, hwmem, hcond, hcw⟩
        · exact Or.inl h
        · exact Or.inr ⟨wc, List.mem_cons_self wc rest, hw, h⟩
        · exact Or.inr ⟨w, List.mem_cons_of_mem wc hwmem, hcond, hcw⟩
      · intro h
        rcases h with h | ⟨w, hwmem, hcond, hcw⟩
        · exact Or.inl (Or.inl h)
        · rcases List.mem_cons.mp hwmem with hww | hww
          · subst hww
            exact Or.inl (Or.inr hcw)
          · exact Or.inr ⟨w, hww, hcond, hcw⟩
    · rw [if_neg hw, ih acc]
      constructor
      · intro h
        rcases h with h | ⟨w, hwmem, hcond, hcw⟩
        · exact Or.inl h
        · exact Or.inr ⟨w, List.mem_cons_of_mem wc hwmem, hcond, hcw⟩
      · intro h
        rcases h with h | ⟨w, hwmem, hcond, hcw⟩
        · exact Or.inl h
        · rcases List.mem_cons.mp hwmem with hww | hww
          · subst hww
            exact absurd hcond hw
          · exact Or.inr ⟨w, hww, hcond, hcw⟩

/-- Membership characterisation of a per-token candidate set. -/
theorem mem_tokenMatches (t : String) (c : String) (ti : TextIndex) :
    c ∈ tokenMatches t ti
      ↔ ∃ wc ∈ ti,
          (isSub t.toList wc.1.toList || isSub wc.1.toList t.toList) = true
            ∧ c ∈ wc.2 := by
  unfold tokenMatches
  rw [mem_tokenMatches_fold]
  simp

/-- The candidate fold preserves freedom from duplicates. -/
theorem nodup_tokenMatches_fold (t : String) (ti : TextIndex) :
    ∀ acc, acc.Nodup →
      (ti.foldl
          (fun acc wc =>
            if isSub t.toList wc.1.toList || isSub wc.1.toList t.toList then
              setUnion acc wc.2
            else acc)
          acc).Nodup := by
  induction ti with
  | nil => intro acc h; exact h
  | cons wc rest ih =>
    intro acc h
    rw [List.foldl_cons]
    by_cases hw : (isSub t.toList wc.1.toList || isSub wc.1.toList t.toList) = true
    · rw [if_pos hw]
      exact ih (setUnion acc wc.2) (nodup_setUnion wc.2 acc h)
    · rw [if_neg hw]
      exact ih acc h

/-- A per-token candidate set is duplicate-free. -/
theorem nodup_tokenMatches (t : String) (ti : TextIndex) :
    (tokenMatches t ti).Nodup :=
  nodup_tokenMatches_fold t ti [] List.nodup_nil

/-- The spec-side candidate test agrees with the computed candidate
set. -/
theorem specCandidate_iff_mem (ti : TextIndex) (t c : String) :
    specCandidate ti t c = true ↔ c ∈ tokenMatches t ti := by
  unfold specCandidate specMatchWord
  rw [List.any_eq_true, mem_tokenMatches]
  constructor
  · intro ⟨wc, hm, h⟩
    rw [Bool.and_eq_true] at h
    exact ⟨wc, hm, h.1, List.elem_iff.mp h.2⟩
  · intro ⟨wc, hm, hcond, hc⟩
    exact ⟨wc, hm, by rw [Bool.and_eq_true]; exact ⟨hcond, List.elem_iff.mpr hc⟩⟩

/-- Membership in the intersection fold of `_search_by_text`. -/
theorem mem_interFold (c : String) (rest : List (List String)) :
    ∀ c0 : List String,
      c ∈ rest.foldl (fun acc s => acc.filter (fun x => s.contains x)) c0
        ↔ c ∈ c0 ∧ ∀ s ∈ rest, c ∈ s := by
  induction rest with
  | nil => intro c0; simp
  | cons s t ih =>
    intro c0
    rw [List.foldl_cons, ih (c0.filter (fun x => s.contains x))]
    rw [List.mem_filter]
    constructor
    · intro ⟨⟨hc0, hcs⟩, ht⟩
      refine ⟨hc0, ?_⟩
      intro s' hs'
      rcases List.mem_cons.mp hs' with hs' | hs'
      · subst hs'
        exact List.elem_iff.mp hcs
      · exact ht s' hs'
    · intro ⟨hc0, hall⟩
      refine ⟨⟨hc0, List.elem_iff.mpr (hall s (List.mem_cons_self s t))⟩, ?_⟩
      intro s' hs'
      exact hall s' (List.mem_cons_of_mem s hs')

/-- The intersection fold keeps a duplicate-free start duplicate-free. -/
theorem nodup_interFold (rest : List (List String)) :
    ∀ c0 : List String, c0.Nodup →
      (rest.foldl (fun acc s => acc.filter (fun x => s.contains x)) c0).Nodup := by
  induction rest with
  | nil => intro c0 h; exact h
  | cons s t ih =>
    intro c0 h
    rw [List.foldl_cons]
    exact ih _ (h.filter _)

/-- With duplicate-free keys, every binding is found by lookup. -/
theorem lookupCI_of_mem (ci : CodeIndex) (p : String × Node)
    (hnd : (ci.map Prod.fst).Nodup) (hp : p ∈ ci) :
    lookupCI ci p.1 = some p.2 := by
  induction ci with
  | nil => cases hp
  | cons q rest ih =>
    rcases List.mem_cons.mp hp with hq | hq
    · subst hq
      simp [lookupCI]
    · have hqp : q.1 ≠ p.1 := by
        intro hcontra
        have : p.1 ∈ rest.map Prod.fst := List.mem_map_of_mem Prod.fst hq
        rw [← hcontra] at this
        exact (List.nodup_cons.mp hnd).1 this
      have hres := ih (List.nodup_cons.mp hnd).2 hq
      simpa [lookupCI, List.find?_cons, beq_iff_eq, hqp] using hres

/-- A successful lookup exhibits a binding of the looked-up key. -/
theorem mem_of_lookupCI (ci : CodeIndex) (c : String) (n : Node)
    (h : lookupCI ci c = some n) : (c, n) ∈ ci := by
  induction ci with
  | nil => cases h
  | cons q rest ih =>
    by_cases hq : q.1 = c
    · have : q.2 = n := by
        simpa [lookupCI, List.find?_cons, beq_iff_eq, hq] using h
      have hqc : q = (c, n) := by
        obtain ⟨q1, q2⟩ := q
        simp only at hq this
        rw [hq, this]
      rw [← hqc]
      exact List.mem_cons_self q rest
    · have hres : lookupCI rest c = some n := by
        simpa [lookupCI, List.find?_cons, beq_iff_eq, hq] using h
      exact List.mem_cons_of_mem q (ih hres)

/-- `List.isPrefixOf` is the existence of a completing suffix. -/
theorem isPrefixOf_iff_append (a : List Char) :
    ∀ b, a.isPrefixOf b = true ↔ ∃ t, b = a ++ t := by
  induction a with
  | nil => intro b; simp [List.isPrefixOf]
  | cons c r ih =>
    intro b
    cases b with
    | nil => simp [List.isPrefixOf]
    | cons d s =>
      rw [show (c :: r).isPrefixOf (d :: s) = ((c == d) && r.isPrefixOf s)
        from rfl]
      rw [Bool.and_eq_true, beq_iff_eq, ih s]
      constructor
      · intro ⟨hcd, t, hts⟩
        exact ⟨t, by rw [hcd, hts]; rfl⟩
      · intro ⟨t, ht⟩
        injection ht with h1 h2
        exact ⟨h1.symm, t, h2⟩

/-- Python's `in` on strings: `isSub a b` holds exactly when `a`
appears contiguously inside `b`. -/
theorem isSub_iff_append (a : List Char) :
    ∀ b, isSub a b = true ↔ ∃ x y, b = x ++ a ++ y := by
  intro b
  induction b with
  | nil =>
    simp only [isSub, List.isEmpty_iff]
    constructor
    · intro h
      exact ⟨[], [], by simp [h]⟩
    · intro ⟨x, y, hxy⟩
      rcases List.append_eq_nil.mp (List.append_eq_nil.mp hxy.symm).1 with ⟨_, ha⟩
      exact ha
  | cons d s ih =>
    rw [show isSub a (d :: s) = (a.isPrefixOf (d :: s) || isSub a s) from rfl]
    rw [Bool.or_eq_true, ih, isPrefixOf_iff_append]
    constructor
    · intro h
      rcases h with ⟨t, ht⟩ | ⟨x, y, hxy⟩
      · exact ⟨[], t, by simpa using ht⟩
      · exact ⟨d :: x, y, by rw [hxy]; rfl⟩
    · intro ⟨x, y, hxy⟩
      cases x with
      | nil =>
        exact Or.inl ⟨y, by simpa using hxy⟩
      | cons e z =>
        injection hxy with h1 h2
        exact Or.inr ⟨z, y, h2⟩

/-- Membership after a sorted insertion. -/
theorem mem_insertSorted (key : α → String) (a x : α) :
    ∀ l, x ∈ insertSorted key a l ↔ x = a ∨ x ∈ l := by
  intro l
  induction l with
  | nil => simp [insertSorted]
  | cons b t ih =>
    rw [insertSorted]
    by_cases h : key a ≤ key b
    · rw [if_pos h]
      simp [List.mem_cons]
    · rw [if_neg h]
      rw [List.mem_cons, ih, List.mem_cons]
      tauto

/-- Sorted insertion is a permutation of consing. -/
theorem perm_insertSorted (key : α → String) (a : α) :
    ∀ l, (insertSorted key a l).Perm (a :: l) := by
  intro l
  induction l with
  | nil => simp [insertSorted]
  | cons b t ih =>
    rw [insertSorted]
    by_cases h : key a ≤ key b
    · rw [if_pos h]
    · rw [if_neg h]
      exact (List.Perm.cons b ih).trans (List.Perm.swap a b t)

/-- The insertion sort permutes its input. -/
theorem perm_sortByKey (key : α → String) :
    ∀ l, (sortByKey key l).Perm l := by
  intro l
  induction l with
  | nil => simp [sortByKey]
  | cons b t ih =>
    have hstep : sortByKey key (b :: t) = insertSorted key b (sortByKey key t) := rfl
    rw [hstep]
    exact (perm_insertSorted key b (sortByKey key t)).trans (List.Perm.cons b ih)

/-- Sorted insertion preserves sortedness by the key. -/
theorem pairwise_insertSorted (key : α → String) (a : α) :
    ∀ l, l.Pairwise (fun x y => key x ≤ key y) →
      (insertSorted key a l).Pairwise (fun x y => key x ≤ key y) := by
  intro l
  induction l with
  | nil => intro _; simp [insertSorted]
  | cons b t ih =>
    intro h
    obtain ⟨hb, ht⟩ := List.pairwise_cons.mp h
    rw [insertSorted]
    by_cases hab : key a ≤ key b
    · rw [if_pos hab]
      refine List.pairwise_cons.mpr ⟨?_, h⟩
      intro x hx
      rcases List.mem_cons.mp hx with hx | hx
      · rw [hx]; exact hab
      · exact le_trans hab (hb x hx)
    · rw [if_neg hab]
      refine List.pairwise_cons.mpr ⟨?_, ih ht⟩
      intro x hx
      rcases (mem_insertSorted key a x t).mp hx with hx | hx
      · rw [hx]
        exact le_of_not_le hab
      · exact hb x hx

/-- The insertion sort sorts by the key. -/
theorem pairwise_sortByKey (key : α → String) :
    ∀ l, (sortByKey key l).Pairwise (fun x y => key x ≤ key y) := by
  intro l
  induction l with
  | nil => simp [sortByKey]
  | cons b t ih =>
    exact pairwise_insertSorted key b (sortByKey key t) ih

/-- Sortedness by key together with duplicate-free keys gives strict
sortedness. -/
theorem pairwise_lt_of_le_nodup (key : α → String) (l : List α)
    (hle : l.Pairwise (fun x y => key x ≤ key y))
    (hnd : (l.map key).Nodup) :
    l.Pairwise (fun x y => key x < key y) := by
  have hne : l.Pairwise (fun x y => key x ≠ key y) :=
    (List.pairwise_map).mp hnd
  exact (hle.and hne).imp (fun h => lt_of_le_of_ne h.1 h.2)

/-- Two strictly key-sorted lists with the same members are equal. -/
theorem eq_of_pairwise_lt_mem (key : α → String) :
    ∀ l₁ l₂ : List α,
      l₁.Pairwise (fun x y => key x < key y) →
      l₂.Pairwise (fun x y => key x < key y) →
      (∀ x, x ∈ l₁ ↔ x ∈ l₂) → l₁ = l₂ := by
  intro l₁
  induction l₁ with
  | nil =>
    intro l₂ _ _ hm
    cases l₂ with
    | nil => rfl
    | cons b t => exact absurd ((hm b).mpr (List.mem_cons_self b t)) (List.not_mem_nil b)
  | cons a t ih =>
    intro l₂ h₁ h₂ hm
    cases l₂ with
    | nil => exact absurd ((hm a).mp (List.mem_cons_self a t)) (List.not_mem_nil a)
    | cons b s =>
      obtain ⟨ha, ht⟩ := List.pairwise_cons.mp h₁
      obtain ⟨hb, hs⟩ := List.pairwise_cons.mp h₂
      have hab : a = b := by
        rcases List.mem_cons.mp ((hm a).mp (List.mem_cons_self a t)) with h | h
        · exact h
        · rcases List.mem_cons.mp ((hm b).mpr (List.mem_cons_self b s)) with h' | h'
          · exact h'.symm
          · exact absurd (lt_trans (hb a h) (ha b h')) (lt_irrefl (key b))
      subst hab
      have hts : ∀ x, x ∈ t ↔ x ∈ s := by
        intro x
        constructor
        · intro hx
          rcases List.mem_cons.mp ((hm x).mp (List.mem_cons_of_mem a hx)) with h | h
          · exact absurd (h ▸ ha x hx) (lt_irrefl (key x))
          · exact h
        · intro hx
          rcases List.mem_cons.mp ((hm x).mpr (List.mem_cons_of_mem a hx)) with h | h
          · exact absurd (h ▸ hb x hx) (lt_irrefl (key x))
          · exact h
      rw [ih s ht hs hts]

/-- Resolving a duplicate-free candidate list against the Code Index
yields nodes with duplicate-free codes, provided every resolved node
carries its candidate code. -/
theorem nodup_codes_filterMap (f : String → Option Node)
    (hf : ∀ c n, f c = some n → n.code = c) :
    ∀ l : List String, l.Nodup →
      ((l.filterMap f).map (fun n => n.code)).Nodup := by
  intro l
  induction l with
  | nil => intro _; simp
  | cons c t ih =>
    intro h
    obtain ⟨hc, ht⟩ := List.nodup_cons.mp h
    rw [List.filterMap_cons]
    cases hfc : f c with
    | none => exact ih ht
    | some n =>
      rw [List.map_cons]
      refine List.nodup_cons.mpr ⟨?_, ih ht⟩
      intro hmem
      rcases List.mem_map.mp hmem with ⟨n', hn', hcode⟩
      rcases List.mem_filterMap.mp hn' with ⟨c', hc', hfc'⟩
      have h1 : n'.code = c' := hf c' n' hfc'
      have h2 : n.code = c := hf c n hfc
      rw [h2] at hcode
      rw [h1] at hcode
      rw [hcode] at hc'
      exact hc hc'

/-- C3: free-text search refines its specification: the query is
normalized and tokenized with sub-2-character tokens discarded, an
empty token list yields an empty result, per-token candidate sets are
unions over bidirectional substring containment, and the result is
exactly the nodes whose code lies in every per-token candidate set,
sorted lexicographically by code and truncated to `max_results`
(`spec_text_search`), under the parse invariants that Code Index keys
are the node codes and are duplicate-free. -/
theorem c3_text_search_refines_spec (q : String) (ci : CodeIndex)
    (ti : TextIndex) (m : Nat)
    (hkeys : ci.all (fun p => p.2.code == p.1) = true)
    (hnd : (ci.map Prod.fst).Nodup) :
    search_by_text q ci ti m = spec_text_search q ci ti m
      ∧ (tokensOf q = [] → search_by_text q ci ti m = [])
      ∧ (∀ t c, c ∈ tokenMatches t ti ↔
          ∃ wc ∈ ti,
            ((∃ x y, wc.1.toList = x ++ t.toList ++ y)
              ∨ (∃ x y, t.toList = x ++ wc.1.toList ++ y))
              ∧ c ∈ wc.2) := by
  have hk : ∀ p ∈ ci, (p.2 : Node).code = p.1 := by
    intro p hp
    exact beq_iff_eq.mp (List.all_eq_true.mp hkeys p hp)
  have hf : ∀ c n, lookupCI ci c = some n → n.code = c := by
    intro c n hl
    exact hk (c, n) (mem_of_lookupCI ci c n hl)
  refine ⟨?_, ?_, ?_⟩
  · by_cases hw : (tokensOf q).isEmpty
    · simp [search_by_text, spec_text_search, hw]
    · cases hts : tokensOf q with
      | nil => rw [hts] at hw; simp at hw
      | cons w0 wrest =>
        have hsrc : search_by_text q ci ti m
            = (sortByKey (fun n => n.code)
                (((wrest.map (fun w => tokenMatches w ti)).foldl
                    (fun acc s => acc.filter (fun c => s.contains c))
                    (tokenMatches w0 ti)).filterMap
                  (fun c => lookupCI ci c))).take m := by
          simp [search_by_text, hts]
        have hspec : spec_text_search q ci ti m
            = (sortByKey (fun n => n.code)
                ((ci.filter
                    (fun p => (w0 :: wrest).all
                      (fun t => specCandidate ti t p.1))).map
                  (fun p => p.2))).take m := by
          simp [spec_text_search, hts]
        rw [hsrc, hspec]
        have hndCand : ((wrest.map (fun w => tokenMatches w ti)).foldl
            (fun acc s => acc.filter (fun c => s.contains c))
            (tokenMatches w0 ti)).Nodup :=
          nodup_interFold _ _ (nodup_tokenMatches w0 ti)
        have hndR : ((((wrest.map (fun w => tokenMatches w ti)).foldl
            (fun acc s => acc.filter (fun c => s.contains c))
            (tokenMatches w0 ti)).filterMap
              (fun c => lookupCI ci c)).map (fun n => n.code)).Nodup :=
          nodup_codes_filterMap (fun c => lookupCI ci c) hf _ hndCand
        have hmapS : ((ci.filter
            (fun p => (w0 :: wrest).all (fun t => specCandidate ti t p.1))).map
              (fun p => p.2)).map (fun n => n.code)
            = (ci.filter
                (fun p => (w0 :: wrest).all
                  (fun t => specCandidate ti t p.1))).map Prod.fst := by
          rw [List.map_map]
          apply List.map_congr_left
          intro p hp
          exact hk p (List.mem_filter.mp hp).1
        have hndS : (((ci.filter
            (fun p => (w0 :: wrest).all (fun t => specCandidate ti t p.1))).map
              (fun p => p.2)).map (fun n => n.code)).Nodup := by
          rw [hmapS]
          exact ((List.filter_sublist ci).map Prod.fst).nodup hnd
        have hmem : ∀ x : Node,
            x ∈ ((wrest.map (fun w => tokenMatches w ti)).foldl
                (fun acc s => acc.filter (fun c => s.contains c))
                (tokenMatches w0 ti)).filterMap (fun c => lookupCI ci c)
              ↔ x ∈ (ci.filter
                  (fun p => (w0 :: wrest).all
                    (fun t => specCandidate ti t p.1))).map (fun p => p.2) := by
          intro x
          rw [List.mem_filterMap]
          constructor
          · rintro ⟨c, hc, hlook⟩
            have hcx : (c, x) ∈ ci := mem_of_lookupCI ci c x hlook
            have hcand := (mem_interFold c _ _).mp hc
            apply List.mem_map.mpr
            refine ⟨(c, x), List.mem_filter.mpr ⟨hcx, ?_⟩, rfl⟩
            rw [List.all_eq_true]
            intro t ht
            rw [specCandidate_iff_mem]
            rcases List.mem_cons.mp ht with h | h
            · rw [h]; exact hcand.1
            · exact hcand.2 (tokenMatches t ti)
                (List.mem_map_of_mem (fun w => tokenMatches w ti) h)
          · intro hx
            rcases List.mem_map.mp hx with ⟨p, hpf, hpx⟩
            rcases List.mem_filter.mp hpf with ⟨hpci, hpred⟩
            rw [List.all_eq_true] at hpred
            refine ⟨p.1, ?_, ?_⟩
            · rw [mem_interFold]
              constructor
              · have hh := hpred w0 (List.mem_cons_self w0 wrest)
                rw [specCandidate_iff_mem] at hh
                exact hh
              · intro s hs
                rcases List.mem_map.mp hs with ⟨t, htw, hts'⟩
                have hh := hpred t (List.mem_cons_of_mem w0 htw)
                rw [specCandidate_iff_mem] at hh
                rw [← hts']
                exact hh
            · have hh := lookupCI_of_mem ci p hnd hpci
              rw [hpx] at hh
              exact hh
        have hsort : sortByKey (fun n => n.code)
            (((wrest.map (fun w => tokenMatches w ti)).foldl
                (fun acc s => acc.filter (fun c => s.contains c))
                (tokenMatches w0 ti)).filterMap (fun c => lookupCI ci c))
            = sortByKey (fun n => n.code)
                ((ci.filter
                    (fun p => (w0 :: wrest).all
                      (fun t => specCandidate ti t p.1))).map
                  (fun p => p.2)) := by
          apply eq_of_pairwise_lt_mem (fun n : Node => n.code)
          · apply pairwise_lt_of_le_nodup _ _ (pairwise_sortByKey _ _)
            exact (((perm_sortByKey (fun n : Node => n.code) _).map
              (fun n : Node => n.code)).nodup_iff).mpr hndR
          · apply pairwise_lt_of_le_nodup _ _ (pairwise_sortByKey _ _)
            exact (((perm_sortByKey (fun n : Node => n.code) _).map
              (fun n : Node => n.code)).nodup_iff).mpr hndS
          · intro x
            rw [(perm_sortByKey (fun n : Node => n.code) _).mem_iff,
              (perm_sortByKey (fun n : Node => n.code) _).mem_iff]
            exact hmem x
        rw [hsort]
  · intro h
    simp [search_by_text, h]
  · intro t c
    rw [mem_tokenMatches]
    constructor
    · rintro ⟨wc, hw, hcond, hc⟩
      rw [Bool.or_eq_true] at hcond
      rcases hcond with h | h
      · exact ⟨wc, hw, Or.inl ((isSub_iff_append _ _).mp h), hc⟩
      · exact ⟨wc, hw, Or.inr ((isSub_iff_append _ _).mp h), hc⟩
    · rintro ⟨wc, hw, hcond, hc⟩
      refine ⟨wc, hw, ?_, hc⟩
      rw [Bool.or_eq_true]
      rcases hcond with h | h
      · exact Or.inl ((isSub_iff_append _ _).mpr h)
      · exact Or.inr ((isSub_iff_append _ _).mpr h)

/-- Closed witness for `c3_text_search_refines_spec`: on the sample
index the computed free-text results coincide with the spec-side
formulation. -/
theorem c3_witness :
    chainCi.all (fun p => p.2.code == p.1) = true
      ∧ (chainCi.map Prod.fst).Nodup
      ∧ search_by_text "akutni infekce" chainCi chainTi 10
        = spec_text_search "akutni infekce" chainCi chainTi 10 :=
  ⟨by decide, by decide,
    (c3_text_search_refines_spec "akutni infekce" chainCi chainTi 10
      (by decide) (by decide)).1⟩
